import Mathlib

/-!
# gopart: index-range partitioning

A shallow embedding of `gopart.go` (`IdxRange`, `Partition`, `PartitionWithStep`)
and the properties of the produced range sequence.

Modelling conventions.

* Go's `int` is taken at its 64-bit width: a value is an integer in
  `[minInt, maxInt]` (`IsInt`) and every arithmetic operation of the source wraps around
  in two's complement (`wrap`, `goAdd`, `goSub`, `goMul`).  Go's `/` on integers
  truncates toward zero (`Int.tdiv`); its only overflow is `minInt / -1` (`goDiv`).
* An integer division by zero is a run-time panic in Go; it is the outcome
  `Outcome.divideByZero`.
* The channel is modelled by the list of values sent on it, in sending order, up to
  the `close`.
* The `for` loop of the producer is run with fuel: its condition is evaluated at most
  `fuel` times and `Outcome.outOfFuel` reports that the loop had not exited by then.
  `Produces` states that with enough fuel the channel is closed after a given sequence.
* `closedForm`, `specRanges` and `naiveSlide` are written over the mathematical
  integers; they are what the code is compared with.
-/

namespace Gopart

/-- The least value of Go's 64-bit `int`. -/
abbrev minInt : Int := -9223372036854775808

/-- The greatest value of Go's 64-bit `int`. -/
abbrev maxInt : Int := 9223372036854775807

/-- The integer `x` is a value of Go's 64-bit `int`. -/
abbrev IsInt (x : Int) : Prop := minInt ≤ x ∧ x ≤ maxInt

/-- Two's-complement wrap-around of a mathematical integer into `[minInt, maxInt]`. -/
def wrap (x : Int) : Int :=
  (x + 9223372036854775808) % 18446744073709551616 - 9223372036854775808

/-- Go's `a + b` on `int`. -/
def goAdd (a b : Int) : Int := wrap (a + b)

/-- Go's `a - b` on `int`. -/
def goSub (a b : Int) : Int := wrap (a - b)

/-- Go's `a * b` on `int`. -/
def goMul (a b : Int) : Int := wrap (a * b)

/-- Go's `a / b` on `int` for `b` other than zero: the quotient truncated toward zero,
which wraps around for `minInt / -1`. -/
def goDiv (a b : Int) : Int := wrap (a.tdiv b)

/-- A single range: `Low` is inclusive, `High` is exclusive (gopart.go:7-9). -/
structure IdxRange where
  Low : Int
  High : Int
deriving DecidableEq, Repr

/-- What a consumer draining the returned channel observes. -/
inductive Outcome where
  /-- The channel was closed after exactly these ranges had been sent, in this order. -/
  | closed (sent : List IdxRange)
  /-- The producer panicked on an integer division by zero (gopart.go:57). -/
  | divideByZero
  /-- The loop of gopart.go:60-62 was still running when the fuel ran out. -/
  | outOfFuel
deriving DecidableEq, Repr

/-- The value of `numFullPartitions` computed at gopart.go:57,
`(collectionLen + step - partitionSize - 1) / step`, for a non-zero `step`. -/
def numFullPartitions (collectionLen partitionSize step : Int) : Int :=
  goDiv (goSub (goSub (goAdd collectionLen step) partitionSize) 1) step

/-- The loop of gopart.go:60-62,
`for ; partitionStart < numFullPartitions*step; partitionStart += step { c <- ... }`.
The state is `partitionStart` together with the ranges sent so far; on exit the final
value of `partitionStart` is returned with them.  One unit of fuel is spent on each
evaluation of the loop condition. -/
def sendFull (partitionSize step numFullPartitions : Int) :
    Nat → Int → List IdxRange → Option (Int × List IdxRange)
  | 0, _, _ => none
  | fuel + 1, partitionStart, sent =>
    if partitionStart < goMul numFullPartitions step then
      sendFull partitionSize step numFullPartitions fuel (goAdd partitionStart step)
        (sent ++ [{ Low := partitionStart, High := goAdd partitionStart partitionSize }])
    else
      some (partitionStart, sent)

/-- The function `PartitionWithStep` of gopart.go:49-71, as seen by the consumer of the
returned channel. -/
def PartitionWithStep (fuel : Nat) (collectionLen partitionSize step : Int) : Outcome :=
  if partitionSize ≤ 0 then
    Outcome.closed []
  else if step = 0 then
    Outcome.divideByZero
  else
    match sendFull partitionSize step (numFullPartitions collectionLen partitionSize step)
        fuel 0 [] with
    | none => Outcome.outOfFuel
    | some (partitionStart, sent) =>
      if partitionStart < collectionLen then
        Outcome.closed (sent ++ [{ Low := partitionStart, High := collectionLen }])
      else
        Outcome.closed sent

/-- The function `Partition` of gopart.go:27-29. -/
def Partition (fuel : Nat) (collectionLen partitionSize : Int) : Outcome :=
  PartitionWithStep fuel collectionLen partitionSize partitionSize

/-- The call `PartitionWithStep(collectionLen, partitionSize, step)` produces the
sequence `rs`: with enough fuel the producer closes the channel after sending exactly
`rs`. -/
def Produces (collectionLen partitionSize step : Int) (rs : List IdxRange) : Prop :=
  ∃ fuel0 : Nat, ∀ fuel : Nat, fuel0 ≤ fuel →
    PartitionWithStep fuel collectionLen partitionSize step = Outcome.closed rs

/-- The call `Partition(collectionLen, partitionSize)` produces the sequence `rs`. -/
def PartitionProduces (collectionLen partitionSize : Int) (rs : List IdxRange) : Prop :=
  ∃ fuel0 : Nat, ∀ fuel : Nat, fuel0 ≤ fuel →
    Partition fuel collectionLen partitionSize = Outcome.closed rs

/-- The width `High - Low` of a range. -/
def IdxRange.width (r : IdxRange) : Int := r.High - r.Low

/-! ## Closed forms of the produced sequence for a positive step -/

/-- The left-over range sent after the loop when it exited with `partitionStart = start`. -/
def leftOver (collectionLen start : Int) : List IdxRange :=
  if start < collectionLen then [{ Low := start, High := collectionLen }] else []

/-- The sequence sent for a positive size and a positive step, whatever wraps around:
`numFullPartitions` ranges starting at the multiples of `step`, then the left-over
range. -/
def machineForm (collectionLen partitionSize step : Int) : List IdxRange :=
  ((List.range (numFullPartitions collectionLen partitionSize step).toNat).map
      fun (i : Nat) =>
        ({ Low := (i : Int) * step, High := goAdd ((i : Int) * step) partitionSize } :
          IdxRange)) ++
    leftOver collectionLen
      (((numFullPartitions collectionLen partitionSize step).toNat : Int) * step)

/-- The number of executions of the loop body for a positive step when
`collectionLen + step - partitionSize - 1` does not wrap around: the truncated quotient
over the mathematical integers, or `0` when that quotient is negative. -/
def numFull (collectionLen partitionSize step : Int) : Nat :=
  ((collectionLen + step - partitionSize - 1).tdiv step).toNat

/-- The ranges `{i*step, i*step + partitionSize}` for `i = 0, ..., n - 1`. -/
def fullRanges (partitionSize step : Int) (n : Nat) : List IdxRange :=
  (List.range n).map fun (i : Nat) =>
    { Low := (i : Int) * step, High := (i : Int) * step + partitionSize }

/-- The sequence sent for a positive step and a positive size when
`collectionLen + step - partitionSize - 1` does not wrap around, over the mathematical
integers. -/
def closedForm (collectionLen partitionSize step : Int) : List IdxRange :=
  fullRanges partitionSize step (numFull collectionLen partitionSize step) ++
    leftOver collectionLen (numFull collectionLen partitionSize step * step)

/-! ## The algorithm as the specification words it -/

/-- The specification's count of full windows: `floor((length - size) / step) + 1` when
`length >= size`, and `0` otherwise. -/
def specNumFull (length size step : Int) : Int :=
  if size ≤ length then (length - size).fdiv step + 1 else 0

/-- The specification's algorithm: the ranges `{s, s + size}` for
`s = 0, step, ..., (numFull - 1) * step`, followed by one final range
`{numFull * step, length}` if and only if `numFull * step < length`. -/
def specRanges (length size step : Int) : List IdxRange :=
  fullRanges size step (specNumFull length size step).toNat ++
    (if specNumFull length size step * step < length then
      [{ Low := specNumFull length size step * step, High := length }]
    else [])

/-- The specification's algorithm with the final range sent only when, in addition, the
last full window does not already end at `length`. -/
def specRangesAmended (length size step : Int) : List IdxRange :=
  fullRanges size step (specNumFull length size step).toNat ++
    (if specNumFull length size step * step < length ∧
        (specNumFull length size step - 1) * step + size < length then
      [{ Low := specNumFull length size step * step, High := length }]
    else [])

/-! ## The naive sliding iterator -/

/-- The naive sliding iterator, from the position `s` on: stop if `s >= length`; emit
`{s, min(s + size, length)}`; stop if `s + size >= length`; otherwise continue from
`s + step`.  One unit of fuel is spent on each position visited. -/
def naiveSlide (length size step : Int) : Nat → Int → Option (List IdxRange)
  | 0, _ => none
  | fuel + 1, s =>
    if length ≤ s then
      some []
    else if length ≤ s + size then
      some [{ Low := s, High := min (s + size) length }]
    else
      (naiveSlide length size step fuel (s + step)).map fun rest =>
        { Low := s, High := min (s + size) length } :: rest

/-- The naive sliding iterator started at `s = 0` produces the sequence `rs`: with
enough fuel it stops after emitting exactly `rs`. -/
def NaiveProduces (length size step : Int) (rs : List IdxRange) : Prop :=
  ∃ fuel0 : Nat, ∀ fuel : Nat, fuel0 ≤ fuel → naiveSlide length size step fuel 0 = some rs

/-! ## Wrap-around arithmetic -/

/-- A wrapped value is a value of `int`. -/
theorem wrap_isInt (x : Int) : IsInt (wrap x) := by
  simp only [IsInt, minInt, maxInt, wrap]
  constructor <;> omega

/-- Wrapping leaves a value of `int` unchanged. -/
theorem wrap_eq_self {x : Int} (h : IsInt x) : wrap x = x := by
  simp only [IsInt, minInt, maxInt] at h
  unfold wrap
  omega

/-- Wrapping ignores multiples of `2^64`. -/
theorem wrap_add_mul (x k : Int) : wrap (x + k * 18446744073709551616) = wrap x := by
  unfold wrap
  have : x + k * 18446744073709551616 + 9223372036854775808 =
      x + 9223372036854775808 + k * 18446744073709551616 := by ring
  rw [this, Int.add_mul_emod_self]

theorem wrap_wrap_add (a b : Int) : wrap (wrap a + b) = wrap (a + b) := by
  unfold wrap
  omega

theorem wrap_wrap_mul (a b : Int) : wrap (wrap a * b) = wrap (a * b) := by
  obtain ⟨k, hk⟩ : ∃ k : Int, wrap a = a + k * 18446744073709551616 :=
    ⟨-((a + 9223372036854775808) / 18446744073709551616), by unfold wrap; omega⟩
  rw [hk]
  have : (a + k * 18446744073709551616) * b = a * b + (k * b) * 18446744073709551616 := by
    ring
  rw [this, wrap_add_mul]

/-- The dividend of gopart.go:57 is the wrapped value of
`collectionLen + step - partitionSize - 1`. -/
theorem numerator_eq (l s st : Int) :
    goSub (goSub (goAdd l st) s) 1 = wrap (l + st - s - 1) := by
  unfold goSub goAdd wrap
  omega

/-- Truncated division by a positive divisor. -/
theorem tdiv_pos_spec (a st : Int) (hst : 0 < st) :
    (a < 0 ∧ a.tdiv st ≤ 0 ∧ a ≤ a.tdiv st * st ∧ a.tdiv st * st ≤ 0 ∧ a ≤ a.tdiv st) ∨
      (0 ≤ a ∧ 0 ≤ a.tdiv st ∧ a.tdiv st * st ≤ a ∧ a < a.tdiv st * st + st ∧
        a.tdiv st ≤ a ∧ 0 ≤ a.tdiv st * st) := by
  rcases lt_or_le a 0 with ha | ha
  · left
    have h0 : 0 ≤ (-a).tdiv st := Int.tdiv_nonneg (by omega) hst.le
    have h1 : (-a).tdiv st = (-a) / st := Int.tdiv_eq_ediv (by omega) hst.le
    have h2 := Int.ediv_mul_le (-a) hst.ne'
    rw [Int.neg_tdiv] at h0 h1
    have h3 : a.tdiv st * st = -((-a) / st * st) := by rw [← h1]; ring
    have h4 : 0 ≤ (-a) / st * st := mul_nonneg (by omega) hst.le
    have h5 : (-a) / st ≤ (-a) / st * st := le_mul_of_one_le_right (by omega) (by omega)
    refine ⟨ha, by omega, by omega, by omega, by omega⟩
  · right
    have h1 : a.tdiv st = a / st := Int.tdiv_eq_ediv ha hst.le
    have h0 : 0 ≤ a / st := Int.ediv_nonneg ha hst.le
    have h2 := Int.ediv_mul_le a hst.ne'
    have h3 := Int.lt_ediv_add_one_mul_self a hst
    have h5 : a / st ≤ a / st * st := le_mul_of_one_le_right h0 (by omega)
    rw [h1]
    refine ⟨ha, h0, h2, by linarith, by omega, by omega⟩

/-! ## Running the loop -/

/-- The loop for a positive step whose bound does not wrap. -/
theorem sendFull_pos (partitionSize step nf : Int) (hstep : 0 < step) (n : Nat)
    (hB1 : ∀ i : Nat, i < n → (i : Int) * step < goMul nf step)
    (hB2 : ¬ ((n : Int) * step < goMul nf step))
    (hmax : (n : Int) * step ≤ maxInt) :
    ∀ (k i : Nat) (sent : List IdxRange) (fuel : Nat), i + k = n → k < fuel →
      sendFull partitionSize step nf fuel (i * step) sent =
        some ((n : Int) * step,
          sent ++ (List.range' i k).map fun (j : Nat) =>
            { Low := (j : Int) * step, High := goAdd ((j : Int) * step) partitionSize }) := by
  intro k
  induction k with
  | zero =>
    intro i sent fuel hik hfuel
    obtain ⟨f, rfl⟩ : ∃ f, fuel = f + 1 := ⟨fuel - 1, by omega⟩
    have hi : i = n := by omega
    subst hi
    simp [sendFull, hB2]
  | succ k ih =>
    intro i sent fuel hik hfuel
    obtain ⟨f, rfl⟩ : ∃ f, fuel = f + 1 := ⟨fuel - 1, by omega⟩
    have hcond := hB1 i (by omega)
    have hle : ((i + 1 : Nat) : Int) * step ≤ (n : Int) * step :=
      mul_le_mul_of_nonneg_right (by exact_mod_cast (show i + 1 ≤ n by omega)) hstep.le
    have h0 : 0 ≤ ((i + 1 : Nat) : Int) * step := mul_nonneg (Int.ofNat_nonneg _) hstep.le
    have hnext : goAdd ((i : Int) * step) step = ((i + 1 : Nat) : Int) * step := by
      have : (i : Int) * step + step = ((i + 1 : Nat) : Int) * step := by push_cast; ring
      unfold goAdd
      rw [this]
      exact wrap_eq_self ⟨by simp only [minInt]; omega, by omega⟩
    have := ih (i + 1)
      (sent ++ [{ Low := i * step, High := goAdd ((i : Int) * step) partitionSize }]) f
      (by omega) (by omega)
    simp only [sendFull, hcond, if_true, hnext, this]
    simp [List.range'_succ]

/-- More fuel does not change a run that has exited. -/
theorem sendFull_mono (partitionSize step nf : Int) :
    ∀ (fuel : Nat) (ps : Int) (sent : List IdxRange) (r : Int × List IdxRange),
      sendFull partitionSize step nf fuel ps sent = some r →
      sendFull partitionSize step nf (fuel + 1) ps sent = some r := by
  intro fuel
  induction fuel with
  | zero => intro ps sent r h; simp [sendFull] at h
  | succ fuel ih =>
    intro ps sent r h
    rw [sendFull] at h ⊢
    split
    · rename_i hc
      rw [if_pos hc] at h
      exact ih _ _ _ h
    · rename_i hc
      rw [if_neg hc] at h
      exact h

theorem sendFull_mono_le (partitionSize step nf : Int) (fuel fuel' : Nat) (ps : Int)
    (sent : List IdxRange) (r : Int × List IdxRange) (hle : fuel ≤ fuel')
    (h : sendFull partitionSize step nf fuel ps sent = some r) :
    sendFull partitionSize step nf fuel' ps sent = some r := by
  induction hle with
  | refl => exact h
  | step _ ih => exact sendFull_mono _ _ _ _ _ _ _ ih

/-- Once the producer has finished within some fuel, more fuel gives the same outcome. -/
theorem PartitionWithStep_mono (fuel fuel' : Nat) (collectionLen partitionSize step : Int)
    (hle : fuel ≤ fuel')
    (h : PartitionWithStep fuel collectionLen partitionSize step ≠ Outcome.outOfFuel) :
    PartitionWithStep fuel' collectionLen partitionSize step =
      PartitionWithStep fuel collectionLen partitionSize step := by
  unfold PartitionWithStep at h ⊢
  by_cases hsize : partitionSize ≤ 0
  · simp [hsize]
  · by_cases hstep : step = 0
    · simp [hsize, hstep]
    · simp only [hsize, hstep, if_false] at h ⊢
      cases hrun : sendFull partitionSize step
          (numFullPartitions collectionLen partitionSize step) fuel 0 [] with
      | none => rw [hrun] at h; exact absurd rfl h
      | some r => rw [sendFull_mono_le _ _ _ _ _ _ _ _ hle hrun]

theorem produces_of_eval (fuel : Nat) (collectionLen partitionSize step : Int)
    (rs : List IdxRange)
    (h : PartitionWithStep fuel collectionLen partitionSize step = Outcome.closed rs) :
    Produces collectionLen partitionSize step rs :=
  ⟨fuel, fun fuel' hle => by
    rw [PartitionWithStep_mono fuel fuel' _ _ _ hle (by rw [h]; exact Outcome.noConfusion), h]⟩

/-- For a positive step the quotient and the loop bound do not wrap. -/
theorem numFullPartitions_pos_spec (collectionLen partitionSize step : Int)
    (hstep : 0 < step) :
    IsInt (numFullPartitions collectionLen partitionSize step) ∧
      goMul (numFullPartitions collectionLen partitionSize step) step =
        numFullPartitions collectionLen partitionSize step * step ∧
      numFullPartitions collectionLen partitionSize step =
        (wrap (collectionLen + step - partitionSize - 1)).tdiv step ∧
      IsInt (numFullPartitions collectionLen partitionSize step * step) := by
  have hN := wrap_isInt (collectionLen + step - partitionSize - 1)
  have hq : IsInt ((wrap (collectionLen + step - partitionSize - 1)).tdiv step) := by
    simp only [IsInt, minInt, maxInt] at hN ⊢
    rcases tdiv_pos_spec (wrap (collectionLen + step - partitionSize - 1)) step hstep with
      ⟨_, _, _, _, _⟩ | ⟨_, _, _, _, _, _⟩ <;> constructor <;> omega
  have hnf : numFullPartitions collectionLen partitionSize step =
      (wrap (collectionLen + step - partitionSize - 1)).tdiv step := by
    unfold numFullPartitions goDiv
    rw [numerator_eq, wrap_eq_self hq]
  have hB : IsInt ((wrap (collectionLen + step - partitionSize - 1)).tdiv step * step) := by
    simp only [IsInt, minInt, maxInt] at hN ⊢
    rcases tdiv_pos_spec (wrap (collectionLen + step - partitionSize - 1)) step hstep with
      ⟨_, _, _, _, _⟩ | ⟨_, _, _, _, _, _⟩ <;> constructor <;> omega
  rw [hnf]
  exact ⟨hq, by unfold goMul; exact wrap_eq_self hB, rfl, hB⟩

/-- For a positive size and a positive step the producer closes the channel after
`machineForm`. -/
theorem PartitionWithStep_pos (collectionLen partitionSize step : Int)
    (hsize : 0 < partitionSize) (hstep : 0 < step) (fuel : Nat)
    (hfuel : (numFullPartitions collectionLen partitionSize step).toNat < fuel) :
    PartitionWithStep fuel collectionLen partitionSize step =
      Outcome.closed (machineForm collectionLen partitionSize step) := by
  obtain ⟨_, hB, _, hBint⟩ := numFullPartitions_pos_spec collectionLen partitionSize step hstep
  generalize hnf : numFullPartitions collectionLen partitionSize step = nf at *
  have hloop := sendFull_pos partitionSize step nf hstep nf.toNat
    (fun i hi => by
      rw [hB]
      exact mul_lt_mul_of_pos_right (by omega) hstep)
    (by
      rw [hB]
      have : nf ≤ (nf.toNat : Int) := Int.self_le_toNat nf
      have := mul_le_mul_of_nonneg_right this hstep.le
      omega)
    (by
      rcases le_or_lt nf 0 with h | h
      · have : nf.toNat = 0 := by omega
        rw [this]; simp [maxInt]
      · have : (nf.toNat : Int) = nf := Int.toNat_of_nonneg h.le
        rw [this]
        exact hBint.2)
    nf.toNat 0 [] fuel (by omega) hfuel
  simp only [Nat.cast_zero, zero_mul, List.nil_append] at hloop
  unfold PartitionWithStep
  simp only [not_le.mpr hsize, hstep.ne', if_false, hnf, hloop]
  unfold machineForm leftOver
  simp only [hnf, List.range_eq_range']
  split <;> simp

theorem produces_machineForm (collectionLen partitionSize step : Int)
    (hsize : 0 < partitionSize) (hstep : 0 < step) :
    Produces collectionLen partitionSize step (machineForm collectionLen partitionSize step) :=
  ⟨(numFullPartitions collectionLen partitionSize step).toNat + 1, fun fuel hfuel =>
    PartitionWithStep_pos collectionLen partitionSize step hsize hstep fuel (by omega)⟩

/-- If the loop condition fails `k` iterations ahead, the loop exits within `k + 1`
units of fuel. -/
theorem sendFull_exits (partitionSize step nf : Int) :
    ∀ (k : Nat) (ps : Int) (sent : List IdxRange) (fuel : Nat), IsInt ps → k < fuel →
      ¬ (wrap (ps + (k : Int) * step) < goMul nf step) →
      ∃ r, sendFull partitionSize step nf fuel ps sent = some r := by
  intro k
  induction k with
  | zero =>
    intro ps sent fuel hps hfuel hex
    obtain ⟨f, rfl⟩ : ∃ f, fuel = f + 1 := ⟨fuel - 1, by omega⟩
    simp only [Nat.cast_zero, zero_mul, add_zero, wrap_eq_self hps] at hex
    refine ⟨(ps, sent), ?_⟩
    simp [sendFull, hex]
  | succ k ih =>
    intro ps sent fuel hps hfuel hex
    obtain ⟨f, rfl⟩ : ∃ f, fuel = f + 1 := ⟨fuel - 1, by omega⟩
    by_cases hc : ps < goMul nf step
    · have hnext : wrap (goAdd ps step + (k : Int) * step) =
          wrap (ps + ((k + 1 : Nat) : Int) * step) := by
        unfold goAdd
        rw [wrap_wrap_add]
        congr 1
        push_cast
        ring
      obtain ⟨r, hr⟩ := ih (goAdd ps step)
        (sent ++ [{ Low := ps, High := goAdd ps partitionSize }]) f (wrap_isInt _)
        (by omega) (by rw [hnext]; exact hex)
      exact ⟨r, by simp only [sendFull, hc, if_true, hr]⟩
    · refine ⟨(ps, sent), ?_⟩
      simp [sendFull, hc]

/-- The loop exits for every step and every bound. -/
theorem sendFull_terminates (partitionSize step nf : Int) (sent : List IdxRange) :
    ∃ (fuel0 : Nat) (r : Int × List IdxRange),
      sendFull partitionSize step nf fuel0 0 sent = some r := by
  have hK0 : 0 ≤ nf % 18446744073709551616 := Int.emod_nonneg _ (by decide)
  obtain ⟨K, hK⟩ : ∃ K : Nat, (K : Int) = nf % 18446744073709551616 :=
    ⟨(nf % 18446744073709551616).toNat, Int.toNat_of_nonneg hK0⟩
  have hKnf : (K : Int) * step =
      nf * step + (-(nf / 18446744073709551616) * step) * 18446744073709551616 := by
    have := Int.emod_add_ediv nf 18446744073709551616
    rw [hK]
    linear_combination step * this
  have hex : ¬ (wrap (0 + (K : Int) * step) < goMul nf step) := by
    rw [zero_add, hKnf, wrap_add_mul]
    unfold goMul
    exact lt_irrefl _
  obtain ⟨r, hr⟩ := sendFull_exits partitionSize step nf K 0 sent (K + 1)
    (by simp [IsInt, minInt, maxInt]) (by omega) hex
  exact ⟨K + 1, r, hr⟩

/-! ## The closed form over the mathematical integers -/

theorem fullRanges_length (partitionSize step : Int) (n : Nat) :
    (fullRanges partitionSize step n).length = n := by
  simp [fullRanges]

theorem fullRanges_succ (partitionSize step : Int) (n : Nat) :
    fullRanges partitionSize step (n + 1) =
      fullRanges partitionSize step n ++
        [{ Low := n * step, High := n * step + partitionSize }] := by
  simp [fullRanges, List.range_succ]

/-- What `numFull` is for a positive step: zero when the dividend is negative, the
floor of the quotient otherwise. -/
theorem numFull_spec (collectionLen partitionSize step : Int) (hstep : 0 < step) :
    (collectionLen + step - partitionSize - 1 < 0 ∧
        numFull collectionLen partitionSize step = 0) ∨
      (0 ≤ collectionLen + step - partitionSize - 1 ∧
        (numFull collectionLen partitionSize step : Int) * step ≤
          collectionLen + step - partitionSize - 1 ∧
        collectionLen + step - partitionSize - 1 <
          (numFull collectionLen partitionSize step : Int) * step + step) := by
  unfold numFull
  generalize collectionLen + step - partitionSize - 1 = N
  rcases lt_or_le N 0 with hN | hN
  · left
    refine ⟨hN, ?_⟩
    have h1 : 0 ≤ (-N).tdiv step := Int.tdiv_nonneg (by omega) hstep.le
    rw [Int.neg_tdiv] at h1
    omega
  · right
    refine ⟨hN, ?_⟩
    rw [Int.tdiv_eq_ediv hN hstep.le]
    have h0 : 0 ≤ N / step := Int.ediv_nonneg hN hstep.le
    rw [Int.toNat_of_nonneg h0]
    have h1 := Int.ediv_mul_le N hstep.ne'
    have h2 := Int.lt_ediv_add_one_mul_self N hstep
    constructor
    · exact h1
    · linarith

theorem fullRanges_getElem? (partitionSize step : Int) (n i : Nat) :
    (fullRanges partitionSize step n)[i]? =
      if i < n then
        some { Low := (i : Int) * step, High := (i : Int) * step + partitionSize }
      else none := by
  unfold fullRanges
  rw [List.getElem?_map]
  by_cases h : i < n
  · simp [h, List.getElem?_range h]
  · have hlen : (List.range n).length ≤ i := by simp; omega
    simp [h, List.getElem?_eq_none hlen]

/-- The element at index `i` of the closed form: a full range below `numFull`, the
left-over range at `numFull` when there is one. -/
theorem closedForm_getElem? {collectionLen partitionSize step : Int} {i : Nat}
    {r : IdxRange} :
    (closedForm collectionLen partitionSize step)[i]? = some r ↔
      (i < numFull collectionLen partitionSize step ∧
          r = { Low := (i : Int) * step, High := (i : Int) * step + partitionSize }) ∨
        (i = numFull collectionLen partitionSize step ∧
          (numFull collectionLen partitionSize step : Int) * step < collectionLen ∧
          r = { Low := (numFull collectionLen partitionSize step : Int) * step,
                High := collectionLen }) := by
  unfold closedForm
  generalize numFull collectionLen partitionSize step = n
  rw [List.getElem?_append, fullRanges_length, fullRanges_getElem?]
  by_cases h : i < n
  · have hne : i ≠ n := by omega
    simp only [h, if_true, Option.some.injEq, true_and, hne, false_and, or_false]
    exact eq_comm
  · simp only [h, if_false, false_and, false_or]
    unfold leftOver
    by_cases hlt : (n : Int) * step < collectionLen
    · by_cases hin : i = n
      · subst hin
        simp [hlt, eq_comm]
      · obtain ⟨m, hm⟩ : ∃ m, i - n = m + 1 := ⟨i - n - 1, by omega⟩
        simp [hlt, hin, hm]
    · simp [hlt]

theorem closedForm_length (collectionLen partitionSize step : Int) :
    (closedForm collectionLen partitionSize step).length =
      numFull collectionLen partitionSize step +
        if (numFull collectionLen partitionSize step : Int) * step < collectionLen
        then 1 else 0 := by
  unfold closedForm leftOver
  rw [List.length_append, fullRanges_length]
  split <;> simp

/-- Every full range sent by the loop ends strictly before `collectionLen`. -/
theorem full_end_lt (collectionLen partitionSize step : Int) (hstep : 0 < step) {i : Nat}
    (hi : i < numFull collectionLen partitionSize step) :
    (i : Int) * step + partitionSize < collectionLen := by
  rcases numFull_spec collectionLen partitionSize step hstep with ⟨_, h0⟩ | ⟨_, hle, _⟩
  · omega
  · have h1 : ((i : Int) + 1) * step ≤
        (numFull collectionLen partitionSize step : Int) * step :=
      mul_le_mul_of_nonneg_right (by exact_mod_cast hi) hstep.le
    linarith

/-- The loop exits at a start from which a range of width `partitionSize` reaches
`collectionLen`. -/
theorem exit_start_ge (collectionLen partitionSize step : Int) (hstep : 0 < step) :
    collectionLen - partitionSize ≤
      (numFull collectionLen partitionSize step : Int) * step := by
  rcases numFull_spec collectionLen partitionSize step hstep with ⟨hN, h0⟩ | ⟨_, _, hlt⟩
  · rw [h0]
    simp only [Nat.cast_zero, zero_mul]
    omega
  · omega

theorem nat_mul_step_nonneg {step : Int} (hstep : 0 < step) (i : Nat) :
    0 ≤ (i : Int) * step :=
  mul_nonneg (Int.ofNat_nonneg i) hstep.le

theorem Produces_unique {collectionLen partitionSize step : Int} {rs rs' : List IdxRange}
    (h : Produces collectionLen partitionSize step rs)
    (h' : Produces collectionLen partitionSize step rs') : rs = rs' := by
  obtain ⟨f, hf⟩ := h
  obtain ⟨f', hf'⟩ := h'
  have h1 := hf (max f f') (le_max_left _ _)
  have h2 := hf' (max f f') (le_max_right _ _)
  rw [h1] at h2
  exact Outcome.closed.inj h2

/-- In a sequence of non-empty ranges in which each range starts where the previous
one ends, no range starts before the first one. -/
theorem chained_low_ge : ∀ (rs : List IdxRange) (lo : Int),
    (∀ r ∈ rs, r.Low < r.High) →
    (∀ (i : Nat) (a b : IdxRange), rs[i]? = some a → rs[i + 1]? = some b → b.Low = a.High) →
    rs.head?.map IdxRange.Low = some lo → ∀ r ∈ rs, lo ≤ r.Low := by
  intro rs
  induction rs with
  | nil => intro lo _ _ _ r hr; simp at hr
  | cons a tl ih =>
    intro lo hwf hchain hhead r hr
    have ha : a.Low = lo := by simpa using hhead
    rcases List.mem_cons.mp hr with rfl | hr
    · omega
    · cases tl with
      | nil => simp at hr
      | cons b tl =>
        have hb : b.Low = a.High := hchain 0 a b (by simp) (by simp)
        have hwa := hwf a (by simp)
        have := ih a.High (fun r hr => hwf r (List.mem_cons_of_mem _ hr))
          (fun i x y hx hy => hchain (i + 1) x y (by simpa using hx) (by simpa using hy))
          (by simp [hb]) r hr
        omega

/-- A sequence of non-empty ranges in which each range starts where the previous one
ends, from `lo` to `hi`, contains every index of `[lo, hi)` in exactly one range. -/
theorem chained_covers_once : ∀ (rs : List IdxRange) (lo hi x : Int),
    (∀ r ∈ rs, r.Low < r.High) →
    (∀ (i : Nat) (a b : IdxRange), rs[i]? = some a → rs[i + 1]? = some b → b.Low = a.High) →
    rs.head?.map IdxRange.Low = some lo → rs.getLast?.map IdxRange.High = some hi →
    lo ≤ x → x < hi →
    rs.countP (fun r => decide (r.Low ≤ x ∧ x < r.High)) = 1 := by
  intro rs
  induction rs with
  | nil => intro lo hi x _ _ hhead; simp at hhead
  | cons a tl ih =>
    intro lo hi x hwf hchain hhead hlast hlo hhi
    have ha : a.Low = lo := by simpa using hhead
    cases tl with
    | nil =>
      have hah : a.High = hi := by simpa using hlast
      simp [List.countP_cons, ha, hah, hlo, hhi]
    | cons b tl =>
      have hb : b.Low = a.High := hchain 0 a b (by simp) (by simp)
      have hwf' : ∀ r ∈ b :: tl, r.Low < r.High :=
        fun r hr => hwf r (List.mem_cons_of_mem _ hr)
      have hchain' : ∀ (i : Nat) (x y : IdxRange), (b :: tl)[i]? = some x →
          (b :: tl)[i + 1]? = some y → y.Low = x.High :=
        fun i x y hx hy => hchain (i + 1) x y (by simpa using hx) (by simpa using hy)
      have hlast' : (b :: tl).getLast?.map IdxRange.High = some hi := by
        rw [List.getLast?_cons_cons] at hlast
        exact hlast
      rw [List.countP_cons]
      by_cases hx : x < a.High
      · have hzero : (b :: tl).countP (fun r => decide (r.Low ≤ x ∧ x < r.High)) = 0 := by
          rw [List.countP_eq_zero]
          intro r hr
          have := chained_low_ge (b :: tl) a.High hwf' hchain' (by simp [hb]) r hr
          simp only [decide_eq_true_eq, not_and, not_lt]
          intro h
          omega
        rw [hzero]
        simp [ha, hlo, hx]
      · have hone := ih a.High hi x hwf' hchain' (by simp [hb]) hlast' (by omega) hhi
        rw [hone]
        simp [hx]

/-- When `collectionLen + step - partitionSize - 1` does not wrap around, the sequence
sent is the closed form over the mathematical integers. -/
theorem machineForm_eq_closedForm (collectionLen partitionSize step : Int)
    (hsize : 0 < partitionSize) (hstep : 0 < step)
    (hN : IsInt (collectionLen + step - partitionSize - 1)) (hl : collectionLen ≤ maxInt) :
    machineForm collectionLen partitionSize step =
      closedForm collectionLen partitionSize step := by
  obtain ⟨_, _, hnf, _⟩ := numFullPartitions_pos_spec collectionLen partitionSize step hstep
  rw [wrap_eq_self hN] at hnf
  have hn : (numFullPartitions collectionLen partitionSize step).toNat =
      numFull collectionLen partitionSize step := by
    rw [hnf]; rfl
  unfold machineForm closedForm fullRanges
  rw [hn]
  congr 1
  apply List.map_congr_left
  intro i hi
  have hi' : i < numFull collectionLen partitionSize step := List.mem_range.mp hi
  have h1 := full_end_lt collectionLen partitionSize step hstep hi'
  have h2 := nat_mul_step_nonneg hstep i
  have : goAdd ((i : Int) * step) partitionSize = (i : Int) * step + partitionSize := by
    unfold goAdd
    exact wrap_eq_self ⟨by simp only [minInt]; omega, by omega⟩
  rw [this]

/-- For a positive size and a positive step, when `collectionLen + step - partitionSize - 1`
does not wrap around, the producer sends the closed form. -/
theorem produces_closedForm (collectionLen partitionSize step : Int)
    (hsize : 0 < partitionSize) (hstep : 0 < step)
    (hN : IsInt (collectionLen + step - partitionSize - 1)) (hl : collectionLen ≤ maxInt) :
    Produces collectionLen partitionSize step (closedForm collectionLen partitionSize step) := by
  rw [← machineForm_eq_closedForm collectionLen partitionSize step hsize hstep hN hl]
  exact produces_machineForm collectionLen partitionSize step hsize hstep

/-- When `collectionLen + step - partitionSize - 1` exceeds `maxInt`, the dividend of
gopart.go:57 wraps to a negative value, the loop is not entered and the whole collection
is sent as one range. -/
theorem machineForm_of_wrap_above (collectionLen partitionSize step : Int)
    (hl : IsInt collectionLen) (hst : IsInt step) (hsize : 0 < partitionSize)
    (hstep : 0 < step) (hN : maxInt < collectionLen + step - partitionSize - 1) :
    0 < collectionLen ∧
      machineForm collectionLen partitionSize step =
        [{ Low := 0, High := collectionLen }] := by
  obtain ⟨_, _, hnf, _⟩ := numFullPartitions_pos_spec collectionLen partitionSize step hstep
  simp only [IsInt, minInt, maxInt] at hl hst hN
  have hneg : wrap (collectionLen + step - partitionSize - 1) < 0 := by
    unfold wrap
    omega
  have hq : numFullPartitions collectionLen partitionSize step ≤ 0 := by
    rw [hnf]
    rcases tdiv_pos_spec (wrap (collectionLen + step - partitionSize - 1)) step hstep with
      ⟨_, h, _⟩ | ⟨h, _⟩
    · exact h
    · omega
  have hn : (numFullPartitions collectionLen partitionSize step).toNat = 0 := by omega
  have hpos : 0 < collectionLen := by omega
  refine ⟨hpos, ?_⟩
  simp [machineForm, hn, leftOver, hpos]

/-- The index `i` element of `machineForm` starts at `i * step`. -/
theorem machineForm_low {collectionLen partitionSize step : Int} {i : Nat} {r : IdxRange}
    (h : (machineForm collectionLen partitionSize step)[i]? = some r) :
    r.Low = (i : Int) * step := by
  unfold machineForm at h
  generalize (numFullPartitions collectionLen partitionSize step).toNat = n at h
  rw [List.getElem?_append] at h
  simp only [List.length_map, List.length_range] at h
  by_cases hi : i < n
  · rw [if_pos hi, List.getElem?_map, List.getElem?_range hi] at h
    simp only [Option.map_some', Option.some.injEq] at h
    rw [← h]
  · rw [if_neg hi] at h
    unfold leftOver at h
    by_cases hlt : (n : Int) * step < collectionLen
    · rw [if_pos hlt] at h
      by_cases hin : i = n
      · subst hin
        simp at h
        rw [← h]
      · obtain ⟨m, hm⟩ : ∃ m, i - n = m + 1 := ⟨i - n - 1, by omega⟩
        simp [hm] at h
    · simp [hlt] at h


/-! ## Properties of the produced sequence -/

/-- C1, as stated, fails: at `PartitionWithStep(minInt, maxInt, maxInt)` (size > 0,
step > 0) the dividend of gopart.go:57 wraps around to `maxInt` and the code sends
`{0, maxInt}`, whose `High` is above the length. -/
theorem range_within_bounds_counterexample :
    IsInt minInt ∧ IsInt maxInt ∧ (0 : Int) < maxInt ∧
      Produces minInt maxInt maxInt [{ Low := 0, High := maxInt }] ∧
      ¬ ∃ rs, Produces minInt maxInt maxInt rs ∧
        ∀ r ∈ rs, 0 ≤ r.Low ∧ r.Low < r.High ∧ r.High ≤ minInt := by
  have hp : Produces minInt maxInt maxInt [{ Low := 0, High := maxInt }] :=
    produces_of_eval 2 _ _ _ _ (by decide)
  refine ⟨by decide, by decide, by decide, hp, ?_⟩
  rintro ⟨rs, hrs, h⟩
  have := Produces_unique hrs hp
  subst this
  have := (h _ (List.mem_singleton.mpr rfl)).2.2
  revert this
  decide

/-- C1, amended: for every length, every size > 0 and every step > 0 of Go's `int` such
that `length + step - size - 1` is not below `minInt` (as is the case for every
length >= 0), the call `PartitionWithStep(length, size, step)` produces a sequence, and
every range `r` of it satisfies `0 <= r.Low < r.High <= length`. -/
theorem produced_range_within_bounds (length size step : Int) (hl : IsInt length)
    (hst : IsInt step) (hsize : 0 < size) (hstep : 0 < step)
    (hlo : minInt ≤ length + step - size - 1) :
    ∃ rs, Produces length size step rs ∧
      ∀ r ∈ rs, 0 ≤ r.Low ∧ r.Low < r.High ∧ r.High ≤ length := by
  by_cases hhi : length + step - size - 1 ≤ maxInt
  · refine ⟨_, produces_closedForm length size step hsize hstep ⟨hlo, hhi⟩ hl.2, ?_⟩
    intro r hr
    obtain ⟨i, hi⟩ := List.getElem?_of_mem hr
    rcases closedForm_getElem?.mp hi with ⟨hlt, rfl⟩ | ⟨_, hlt, rfl⟩
    · have h1 := full_end_lt length size step hstep hlt
      have h2 := nat_mul_step_nonneg hstep i
      simp only
      omega
    · have h2 := nat_mul_step_nonneg hstep (numFull length size step)
      simp only
      omega
  · obtain ⟨hpos, hform⟩ :=
      machineForm_of_wrap_above length size step hl hst hsize hstep (not_le.mp hhi)
    refine ⟨_, produces_machineForm length size step hsize hstep, ?_⟩
    rw [hform]
    intro r hr
    rw [List.mem_singleton.mp hr]
    exact ⟨le_refl _, hpos, le_refl _⟩

theorem produced_range_within_bounds_witness :
    IsInt 8 ∧ IsInt 2 ∧ (0 : Int) < 3 ∧ (0 : Int) < 2 ∧ minInt ≤ (8 : Int) + 2 - 3 - 1 ∧
      ∃ rs, Produces 8 3 2 rs ∧ ∀ r ∈ rs, 0 ≤ r.Low ∧ r.Low < r.High ∧ r.High ≤ 8 :=
  ⟨by decide, by decide, by decide, by decide, by decide,
    produced_range_within_bounds 8 3 2 (by decide) (by decide) (by decide) (by decide)
      (by decide)⟩

/-- C2: for every length > 0 and size > 0 of Go's `int`, `Partition(length, size)`
produces a sequence that tiles `[0, length)` exactly: it is non-empty, its first range
has `Low = 0`, each following range has `Low` equal to the previous range's `High`, its
last range has `High = length`, and every index of `[0, length)` lies in exactly one of
its ranges. -/
theorem partition_tiles_exactly (length size : Int) (hl : IsInt length) (hlen : 0 < length)
    (hsize : 0 < size) :
    ∃ rs, PartitionProduces length size rs ∧ rs ≠ [] ∧
      rs.head?.map IdxRange.Low = some 0 ∧
      (∀ (i : Nat) (a b : IdxRange), rs[i]? = some a → rs[i + 1]? = some b →
        b.Low = a.High) ∧
      rs.getLast?.map IdxRange.High = some length ∧
      ∀ x : Int, 0 ≤ x → x < length →
        rs.countP (fun r => decide (r.Low ≤ x ∧ x < r.High)) = 1 := by
  have hN : IsInt (length + size - size - 1) := by
    simp only [IsInt, minInt, maxInt] at hl ⊢
    constructor <;> omega
  have hlt : (numFull length size size : Int) * size < length := by
    rcases numFull_spec length size size hsize with
      ⟨_, h0⟩ | ⟨_, hle, _⟩
    · rw [h0]; simpa using hlen
    · omega
  have hlenrs : (closedForm length size size).length = numFull length size size + 1 := by
    rw [closedForm_length]; simp [hlt]
  have hne : closedForm length size size ≠ [] := by
    intro h; rw [h] at hlenrs; simp at hlenrs
  have hhead : (closedForm length size size).head?.map IdxRange.Low = some 0 := by
    rw [List.head?_eq_getElem?]
    by_cases hn : 0 < numFull length size size
    · rw [closedForm_getElem?.mpr (Or.inl ⟨hn, rfl⟩)]; simp
    · have h0 : numFull length size size = 0 := by omega
      rw [closedForm_getElem?.mpr (Or.inr ⟨h0.symm, hlt, rfl⟩)]; simp [h0]
  have hchain : ∀ (i : Nat) (a b : IdxRange), (closedForm length size size)[i]? = some a →
      (closedForm length size size)[i + 1]? = some b → b.Low = a.High := by
    intro i a b ha hb
    rcases closedForm_getElem?.mp ha with ⟨hia, rfl⟩ | ⟨hia, _, rfl⟩
    · rcases closedForm_getElem?.mp hb with ⟨_, rfl⟩ | ⟨hib, _, rfl⟩
      · simp only; push_cast; ring
      · simp only; rw [← hib]; push_cast; ring
    · rcases closedForm_getElem?.mp hb with ⟨hib, _⟩ | ⟨hib, _⟩ <;> omega
  have hlast : (closedForm length size size).getLast?.map IdxRange.High = some length := by
    rw [List.getLast?_eq_getElem?, hlenrs, Nat.add_sub_cancel,
      closedForm_getElem?.mpr (Or.inr ⟨rfl, hlt, rfl⟩)]
    simp
  have hwf : ∀ r ∈ closedForm length size size, r.Low < r.High := by
    intro r hr
    obtain ⟨i, hi⟩ := List.getElem?_of_mem hr
    rcases closedForm_getElem?.mp hi with ⟨_, rfl⟩ | ⟨_, h, rfl⟩
    · simp only; omega
    · exact h
  exact ⟨_, produces_closedForm length size size hsize hsize hN hl.2, hne, hhead, hchain, hlast,
    fun x hx0 hxl => chained_covers_once _ 0 length x hwf hchain hhead hlast hx0 hxl⟩

theorem partition_tiles_exactly_witness :
    IsInt 8 ∧ (0 : Int) < 8 ∧ (0 : Int) < 3 ∧
      ∃ rs, PartitionProduces 8 3 rs ∧ rs ≠ [] ∧
        rs.head?.map IdxRange.Low = some 0 ∧
        (∀ (i : Nat) (a b : IdxRange), rs[i]? = some a → rs[i + 1]? = some b →
          b.Low = a.High) ∧
        rs.getLast?.map IdxRange.High = some 8 ∧
        ∀ x : Int, 0 ≤ x → x < 8 →
          rs.countP (fun r => decide (r.Low ≤ x ∧ x < r.High)) = 1 :=
  ⟨by decide, by decide, by decide,
    partition_tiles_exactly 8 3 (by decide) (by decide) (by decide)⟩

/-- C3: for every integer length, every size > 0 and every step > 0, the i-th range
(counting from 0) produced by `PartitionWithStep(length, size, step)` has
`Low = i * step`; hence consecutive ranges start exactly `step` apart and the ranges are
in strictly increasing order of `Low`. -/
theorem ith_low_eq_index_mul_step (length size step : Int) (hsize : 0 < size)
    (hstep : 0 < step) :
    ∃ rs, Produces length size step rs ∧
      (∀ (i : Nat) (r : IdxRange), rs[i]? = some r → r.Low = (i : Int) * step) ∧
      (∀ (i : Nat) (a b : IdxRange), rs[i]? = some a → rs[i + 1]? = some b →
        b.Low = a.Low + step) ∧
      rs.Pairwise (fun a b => a.Low < b.Low) := by
  have hlow : ∀ (i : Nat) (r : IdxRange), (machineForm length size step)[i]? = some r →
      r.Low = (i : Int) * step := fun i r hr => machineForm_low hr
  refine ⟨_, produces_machineForm length size step hsize hstep, hlow, ?_, ?_⟩
  · intro i a b ha hb
    rw [hlow i a ha, hlow (i + 1) b hb]
    push_cast
    ring
  · rw [List.pairwise_iff_getElem]
    intro i j hi hj hij
    rw [hlow i _ (List.getElem?_eq_getElem hi), hlow j _ (List.getElem?_eq_getElem hj)]
    exact mul_lt_mul_of_pos_right (by exact_mod_cast hij) hstep

theorem ith_low_eq_index_mul_step_witness :
    (0 : Int) < 3 ∧ (0 : Int) < 2 ∧
      ∃ rs, Produces 8 3 2 rs ∧
        (∀ (i : Nat) (r : IdxRange), rs[i]? = some r → r.Low = (i : Int) * 2) ∧
        (∀ (i : Nat) (a b : IdxRange), rs[i]? = some a → rs[i + 1]? = some b →
          b.Low = a.Low + 2) ∧
        rs.Pairwise (fun a b => a.Low < b.Low) :=
  ⟨by decide, by decide, ith_low_eq_index_mul_step 8 3 2 (by decide) (by decide)⟩

/-- C4, at the failing input: at `PartitionWithStep(10, 3, maxInt)` the sum
`collectionLen + step` of gopart.go:57 wraps around, `numFullPartitions` is 0 and the
code sends the single range `{0, 10}`, of width 10, above the size 3. -/
theorem last_width_exceeds_size_at_10_3_maxInt :
    IsInt 10 ∧ IsInt 3 ∧ IsInt maxInt ∧ (0 : Int) < 3 ∧ (0 : Int) < maxInt ∧
      numFullPartitions 10 3 maxInt = 0 ∧
      Produces 10 3 maxInt [{ Low := 0, High := 10 }] ∧
      (3 : Int) < IdxRange.width { Low := 0, High := 10 } :=
  ⟨by decide, by decide, by decide, by decide, by decide, by decide,
    produces_of_eval 1 _ _ _ _ (by decide), by decide⟩

/-- Where `length + step - size - 1` does not wrap around, every range produced except
the last has width `size`, and the last has width at least 1 and at most `size`. -/
theorem widths_full_except_last_of_no_wrap (length size step : Int) (hl : length ≤ maxInt)
    (hsize : 0 < size) (hstep : 0 < step) (hN : IsInt (length + step - size - 1)) :
    ∃ rs, Produces length size step rs ∧
      (∀ (i : Nat) (r : IdxRange), rs[i]? = some r → i + 1 < rs.length →
        r.width = size) ∧
      ∀ r : IdxRange, rs.getLast? = some r → 1 ≤ r.width ∧ r.width ≤ size := by
  refine ⟨_, produces_closedForm length size step hsize hstep hN hl, ?_, ?_⟩
  · intro i r hr hi
    rcases closedForm_getElem?.mp hr with ⟨_, rfl⟩ | ⟨hin, hlt, rfl⟩
    · simp [IdxRange.width]
    · rw [closedForm_length] at hi
      simp only [hlt, if_true] at hi
      omega
  · intro r hr
    rw [List.getLast?_eq_getElem?] at hr
    rcases closedForm_getElem?.mp hr with ⟨_, rfl⟩ | ⟨_, hlt, rfl⟩
    · simp only [IdxRange.width]
      omega
    · have := exit_start_ge length size step hstep
      simp only [IdxRange.width]
      omega

/-- C5, as stated, fails: `PartitionWithStep(5, 3, 6)` produces the single range
`{0, 3}`, whose `High` is not the length 5. -/
theorem last_high_eq_length_counterexample :
    (0 : Int) ≤ 5 ∧ (0 : Int) < 3 ∧ (0 : Int) < 6 ∧
      PartitionWithStep 2 5 3 6 = Outcome.closed [{ Low := 0, High := 3 }] ∧
      Produces 5 3 6 [{ Low := 0, High := 3 }] ∧
      ¬ ∀ rs, Produces 5 3 6 rs → ∀ r : IdxRange, rs.getLast? = some r → r.High = 5 := by
  have hp : Produces 5 3 6 [{ Low := 0, High := 3 }] :=
    produces_of_eval 2 _ _ _ _ (by decide)
  refine ⟨by decide, by decide, by decide, by decide, hp, ?_⟩
  intro h
  have := h _ hp { Low := 0, High := 3 } rfl
  revert this
  decide

/-- Where `length + step - size - 1` does not wrap around, the last range of the closed
form has `High = length` exactly when `(length - 1) mod step < size`. -/
theorem closedForm_last_high (length size step : Int) (hstep : 0 < step)
    (r : IdxRange) (hr : (closedForm length size step).getLast? = some r) :
    (r.High = length ↔ (length - 1) % step < size) ∧ (step ≤ size → r.High = length) := by
  revert r
  intro r hr
  rw [List.getLast?_eq_getElem?, closedForm_length] at hr
  have hmod0 := Int.emod_nonneg (length - 1) hstep.ne'
  have hmodlt := Int.emod_lt_of_pos (length - 1) hstep
  have hdiv := Int.ediv_add_emod (length - 1) step
  have hge := exit_start_ge length size step hstep
  have hnn := nat_mul_step_nonneg hstep (numFull length size step)
  -- the last range reaches `length` exactly when the left-over range is sent
  have hiff : (numFull length size step : Int) * step < length ↔
      (length - 1) % step < size := by
    constructor
    · intro hlt
      by_contra hcon
      have h1 : (numFull length size step : Int) < (length - 1) / step + 1 := by
        by_contra hc
        have := mul_le_mul_of_nonneg_right (not_lt.mp hc) hstep.le
        nlinarith
      have h2 := mul_le_mul_of_nonneg_right (Int.lt_add_one_iff.mp h1) hstep.le
      nlinarith
    · intro hlt
      by_contra hcon
      rcases numFull_spec length size step hstep with
        ⟨_, h0⟩ | ⟨_, hle, _⟩
      · rw [h0] at hcon
        simp only [Nat.cast_zero, zero_mul, not_lt] at hcon
        rcases closedForm_getElem?.mp hr with ⟨h, _⟩ | ⟨_, h, _⟩
        · omega
        · rw [h0] at h
          simp only [Nat.cast_zero, zero_mul] at h
          omega
      · have h1 : (length - 1) / step + 1 ≤ (numFull length size step : Int) := by
          by_contra hc
          have := mul_le_mul_of_nonneg_right (Int.lt_add_one_iff.mp (not_le.mp hc)) hstep.le
          nlinarith
        have := mul_le_mul_of_nonneg_right h1 hstep.le
        nlinarith
  have hhigh : r.High = length ↔ (numFull length size step : Int) * step < length := by
    by_cases hlt : (numFull length size step : Int) * step < length
    · simp only [hlt, if_true, Nat.add_sub_cancel] at hr
      rcases closedForm_getElem?.mp hr with ⟨h, _⟩ | ⟨_, _, rfl⟩
      · omega
      · simp [hlt]
    · simp only [hlt, if_false, Nat.add_zero] at hr
      rcases closedForm_getElem?.mp hr with ⟨h, rfl⟩ | ⟨_, h, _⟩
      · have := full_end_lt length size step hstep h
        simp only [hlt, iff_false]
        omega
      · exact absurd h hlt
  refine ⟨hhigh.trans hiff, fun hss => hhigh.mpr (hiff.mpr ?_)⟩
  omega

/-- C5, amended: for all length >= 0, size > 0 and step > 0 of Go's `int`, if
`PartitionWithStep(length, size, step)` produces any range, then the last range produced
has `High == length` whenever `step <= size`; when `length + step - size - 1` is not
above `maxInt`, it has `High == length` exactly when `(length - 1) mod step < size`. -/
theorem last_high_eq_length_iff (length size step : Int) (hl : IsInt length)
    (hs : IsInt size) (hst : IsInt step) (hlen : 0 ≤ length) (hsize : 0 < size)
    (hstep : 0 < step) :
    ∃ rs, Produces length size step rs ∧
      ∀ r : IdxRange, rs.getLast? = some r →
        (step ≤ size → r.High = length) ∧
        (length + step - size - 1 ≤ maxInt →
          (r.High = length ↔ (length - 1) % step < size)) := by
  by_cases hhi : length + step - size - 1 ≤ maxInt
  · have hN : IsInt (length + step - size - 1) := by
      simp only [IsInt, minInt, maxInt] at hl hs hhi ⊢
      constructor <;> omega
    refine ⟨_, produces_closedForm length size step hsize hstep hN hl.2, ?_⟩
    intro r hr
    have := closedForm_last_high length size step hstep r hr
    exact ⟨this.2, fun _ => this.1⟩
  · obtain ⟨_, hform⟩ :=
      machineForm_of_wrap_above length size step hl hst hsize hstep (not_le.mp hhi)
    refine ⟨_, produces_machineForm length size step hsize hstep, ?_⟩
    intro r _
    refine ⟨fun hss => ?_, fun h => absurd h hhi⟩
    simp only [IsInt, minInt, maxInt] at hl hhi
    omega

theorem last_high_eq_length_iff_witness :
    IsInt 5 ∧ IsInt 3 ∧ IsInt 6 ∧ (0 : Int) ≤ 5 ∧ (0 : Int) < 3 ∧ (0 : Int) < 6 ∧
      ∃ rs, Produces 5 3 6 rs ∧
        ∀ r : IdxRange, rs.getLast? = some r →
          ((6 : Int) ≤ 3 → r.High = 5) ∧
          ((5 : Int) + 6 - 3 - 1 ≤ maxInt → (r.High = 5 ↔ (5 - 1) % 6 < (3 : Int))) :=
  ⟨by decide, by decide, by decide, by decide, by decide, by decide,
    last_high_eq_length_iff 5 3 6 (by decide) (by decide) (by decide) (by decide)
      (by decide) (by decide)⟩

/-- C6: for every length > 0, every size >= length and every step > 0 of Go's `int`,
`PartitionWithStep(length, size, step)` produces exactly one range,
`{Low: 0, High: length}`. -/
theorem oversized_size_single_range (length size step : Int) (hs : IsInt size)
    (hst : IsInt step) (hlen : 0 < length) (hsize : length ≤ size) (hstep : 0 < step) :
    Produces length size step [{ Low := 0, High := length }] := by
  have hl : length ≤ maxInt := le_trans hsize hs.2
  have hN : IsInt (length + step - size - 1) := by
    simp only [IsInt, minInt, maxInt] at hs hst ⊢
    constructor <;> omega
  have hpos : 0 < size := lt_of_lt_of_le hlen hsize
  have hn : numFull length size step = 0 := by
    by_contra hne
    have := full_end_lt length size step hstep
      (i := 0) (Nat.pos_of_ne_zero hne)
    simp only [Nat.cast_zero, zero_mul] at this
    omega
  have hcf : closedForm length size step = [{ Low := 0, High := length }] := by
    simp [closedForm, hn, fullRanges, leftOver, hlen]
  rw [← hcf]
  exact produces_closedForm length size step hpos hstep hN hl

theorem oversized_size_single_range_witness :
    IsInt 19 ∧ IsInt 19 ∧ (0 : Int) < 13 ∧ (13 : Int) ≤ 19 ∧ (0 : Int) < 19 ∧
      Produces 13 19 19 [{ Low := 0, High := 13 }] :=
  ⟨by decide, by decide, by decide, by decide, by decide,
    oversized_size_single_range 13 19 19 (by decide) (by decide) (by decide) (by decide)
      (by decide)⟩

/-- C7: for every size <= 0, every integer length and every integer step (zero
included), `PartitionWithStep(length, size, step)` closes the channel without sending
any range and without dividing by `step`, whatever the fuel; the same holds for
`Partition(length, size)`. -/
theorem nonpositive_size_empty (length size step : Int) (hsize : size ≤ 0) (fuel : Nat) :
    PartitionWithStep fuel length size step = Outcome.closed [] ∧
      Partition fuel length size = Outcome.closed [] := by
  simp [Partition, PartitionWithStep, hsize]

theorem nonpositive_size_empty_witness :
    (0 : Int) ≤ 0 ∧
      PartitionWithStep 0 7 0 0 = Outcome.closed [] ∧
      Partition 0 7 0 = Outcome.closed [] :=
  ⟨by decide, nonpositive_size_empty 7 0 0 (by decide) 0⟩

/-- C8, as stated, fails: at `PartitionWithStep(minInt, maxInt, maxInt)` (length <= 0,
step > 0) the dividend of gopart.go:57 wraps around to `maxInt` and the code sends the
range `{0, maxInt}` instead of nothing. -/
theorem nonpositive_length_counterexample :
    IsInt minInt ∧ IsInt maxInt ∧ minInt ≤ 0 ∧ (0 : Int) < maxInt ∧
      PartitionWithStep 2 minInt maxInt maxInt =
        Outcome.closed [{ Low := 0, High := maxInt }] ∧
      ¬ Produces minInt maxInt maxInt [] := by
  refine ⟨by decide, by decide, by decide, by decide, by decide, ?_⟩
  intro h
  have := Produces_unique h
    (produces_of_eval 2 minInt maxInt maxInt [{ Low := 0, High := maxInt }] (by decide))
  revert this
  decide

/-- C8, amended: for every length <= 0, every size and every step > 0 of Go's `int`
such that `length + step - size - 1` is not below `minInt` (as is the case for
length 0), `PartitionWithStep(length, size, step)` produces the empty sequence. -/
theorem nonpositive_length_empty (length size step : Int) (hst : IsInt step)
    (hlen : length ≤ 0) (hstep : 0 < step) (hlo : minInt ≤ length + step - size - 1) :
    Produces length size step [] := by
  rcases le_or_lt size 0 with hsize | hsize
  · exact ⟨0, fun fuel _ => (by simp [PartitionWithStep, hsize])⟩
  · have hl : length ≤ maxInt := le_trans hlen (by decide)
    have hN : IsInt (length + step - size - 1) := by
      simp only [IsInt, minInt, maxInt] at hst hlo ⊢
      constructor <;> omega
    have hn : numFull length size step = 0 := by
      by_contra hne
      have := full_end_lt length size step hstep
        (i := 0) (Nat.pos_of_ne_zero hne)
      simp only [Nat.cast_zero, zero_mul] at this
      omega
    have hcf : closedForm length size step = [] := by
      simp [closedForm, hn, fullRanges, leftOver, not_lt.mpr hlen]
    rw [← hcf]
    exact produces_closedForm length size step hsize hstep hN hl

theorem nonpositive_length_empty_witness :
    IsInt 19 ∧ (-2 : Int) ≤ 0 ∧ (0 : Int) < 19 ∧ minInt ≤ (-2 : Int) + 19 - 19 - 1 ∧
      Produces (-2) 19 19 [] :=
  ⟨by decide, by decide, by decide, by decide,
    nonpositive_length_empty (-2) 19 19 (by decide) (by decide) (by decide) (by decide)⟩

/-- C9, as stated, fails: `PartitionWithStep(5, 3, 1)` produces `{0,3},{1,4},{2,5}`,
whereas the algorithm of the specification gives `{0,3},{1,4},{2,5},{3,5}`. -/
theorem spec_algorithm_counterexample :
    (0 : Int) < 1 ∧ (0 : Int) < 3 ∧ (3 : Int) ≤ 5 ∧
      PartitionWithStep 3 5 3 1 = Outcome.closed
        [{ Low := 0, High := 3 }, { Low := 1, High := 4 }, { Low := 2, High := 5 }] ∧
      specRanges 5 3 1 =
        [{ Low := 0, High := 3 }, { Low := 1, High := 4 }, { Low := 2, High := 5 },
          { Low := 3, High := 5 }] ∧
      ¬ Produces 5 3 1 (specRanges 5 3 1) := by
  refine ⟨by decide, by decide, by decide, by decide, by decide, ?_⟩
  intro h
  have := Produces_unique h (produces_of_eval 3 5 3 1
    [{ Low := 0, High := 3 }, { Low := 1, High := 4 }, { Low := 2, High := 5 }] (by decide))
  revert this
  decide

/-- C9, amended: for every step > 0 and every length >= size > 0 of Go's `int` such that
`length + step - size - 1` is not above `maxInt`, with
`numFull = floor((length - size) / step) + 1`, the sequence produced by
`PartitionWithStep(length, size, step)` is the ranges `{s, s + size}` for
`s = 0, step, ..., (numFull - 1) * step` in that order, followed by one final range
`{numFull * step, length}` if and only if `numFull * step < length` and the last full
window ends before `length`, that is `(numFull - 1) * step + size < length`. -/
theorem produces_specRangesAmended (length size step : Int) (hl : IsInt length)
    (hstep : 0 < step) (hsize : 0 < size) (hlen : size ≤ length)
    (hhi : length + step - size - 1 ≤ maxInt) :
    Produces length size step (specRangesAmended length size step) := by
  have hN : IsInt (length + step - size - 1) := by
    simp only [IsInt, minInt, maxInt] at hhi ⊢
    constructor <;> omega
  have hcf : closedForm length size step = specRangesAmended length size step := by
    have hm : specNumFull length size step = (length - size) / step + 1 := by
      simp [specNumFull, hlen, Int.fdiv_eq_ediv _ hstep.le]
    have hq0 : 0 ≤ (length - size) / step := Int.ediv_nonneg (by omega) hstep.le
    have hqle := Int.ediv_mul_le (length - size) hstep.ne'
    have hqlt := Int.lt_ediv_add_one_mul_self (length - size) hstep
    have hge := exit_start_ge length size step hstep
    have hle : (numFull length size step : Int) * step ≤ length + step - size - 1 := by
      rcases numFull_spec length size step hstep with
        ⟨_, _⟩ | ⟨_, h, _⟩
      · omega
      · exact h
    obtain ⟨q, hq⟩ : ∃ q : Nat, (q : Int) = (length - size) / step :=
      ⟨((length - size) / step).toNat, Int.toNat_of_nonneg hq0⟩
    rw [← hq] at hqle hqlt
    unfold specRangesAmended
    rw [hm, ← hq]
    have htoNat : ((q : Int) + 1).toNat = q + 1 := by omega
    rw [htoNat]
    unfold closedForm leftOver
    by_cases hdvd : (q : Int) * step = length - size
    · -- the step divides `length - size`: the last full window is sent as the left over
      have hn : numFull length size step = q := by
        have h1 : (numFull length size step : Int) < (q : Int) + 1 := by
          by_contra hc
          have := mul_le_mul_of_nonneg_right (not_lt.mp hc) hstep.le
          nlinarith
        have h2 : (q : Int) ≤ (numFull length size step : Int) := by
          by_contra hc
          have := mul_le_mul_of_nonneg_right (Int.add_one_le_of_lt (not_le.mp hc)) hstep.le
          nlinarith
        omega
      have hlt : (q : Int) * step < length := by omega
      have hnot : ¬ (((q : Int) + 1) * step < length ∧
          ((q : Int) + 1 - 1) * step + size < length) := by
        intro h
        have h2 := h.2
        simp only [add_sub_cancel_right] at h2
        omega
      rw [hn, if_pos hlt, if_neg hnot, fullRanges_succ, List.append_nil]
      have : length = (q : Int) * step + size := by omega
      rw [← this]
    · have hn : numFull length size step = q + 1 := by
        have h1 : (numFull length size step : Int) < (q : Int) + 1 + 1 := by
          by_contra hc
          have := mul_le_mul_of_nonneg_right (not_lt.mp hc) hstep.le
          nlinarith
        have h2 : (q : Int) + 1 ≤ (numFull length size step : Int) := by
          by_contra hc
          have := mul_le_mul_of_nonneg_right (Int.lt_add_one_iff.mp (not_le.mp hc)) hstep.le
          have hlt' : (q : Int) * step < length - size := lt_of_le_of_ne hqle hdvd
          omega
        omega
      have hsecond : ((q : Int) + 1 - 1) * step + size < length := by
        simp only [add_sub_cancel_right]
        have hlt' : (q : Int) * step < length - size := lt_of_le_of_ne hqle hdvd
        omega
      rw [hn]
      push_cast
      simp only [hsecond, and_true]
  rw [← hcf]
  exact produces_closedForm length size step hsize hstep hN hl.2

theorem produces_specRangesAmended_witness :
    IsInt 5 ∧ (0 : Int) < 1 ∧ (0 : Int) < 3 ∧ (3 : Int) ≤ 5 ∧
      (5 : Int) + 1 - 3 - 1 ≤ maxInt ∧
      Produces 5 3 1 (specRangesAmended 5 3 1) :=
  ⟨by decide, by decide, by decide, by decide, by decide,
    produces_specRangesAmended 5 3 1 (by decide) (by decide) (by decide) (by decide)
      (by decide)⟩

/-- C10, at the failing input: at `PartitionWithStep(10, 3, maxInt)` the start `s = 0`
is a non-negative multiple of the step with `0 + 3 <= 10`, yet the code sends only
`{0, 10}` and the full window `{0, 3}` is not in its output. -/
theorem full_window_missing_at_10_3_maxInt :
    IsInt 10 ∧ IsInt 3 ∧ IsInt maxInt ∧ (0 : Int) < 3 ∧ (0 : Int) < maxInt ∧
      Produces 10 3 maxInt [{ Low := 0, High := 10 }] ∧
      ((0 : Int) ≤ 0 ∧ maxInt ∣ (0 : Int) ∧ (0 : Int) + 3 ≤ 10) ∧
      ({ Low := 0, High := 0 + 3 } : IdxRange) ∉
        ([{ Low := 0, High := 10 }] : List IdxRange) :=
  ⟨by decide, by decide, by decide, by decide, by decide,
    produces_of_eval 1 _ _ _ _ (by decide), ⟨by decide, ⟨0, by decide⟩, by decide⟩,
    by decide⟩

/-- Where `length + step - size - 1` does not wrap around, the range
`{Low: s, High: s + size}` occurs in the output if and only if `s` is a non-negative
multiple of `step` with `s + size <= length`. -/
theorem full_window_mem_iff_of_no_wrap (length size step : Int) (hl : length ≤ maxInt)
    (hsize : 0 < size) (hstep : 0 < step) (hN : IsInt (length + step - size - 1)) :
    ∃ rs, Produces length size step rs ∧
      ∀ s : Int, ({ Low := s, High := s + size } : IdxRange) ∈ rs ↔
        (0 ≤ s ∧ step ∣ s ∧ s + size ≤ length) := by
  refine ⟨_, produces_closedForm length size step hsize hstep hN hl, ?_⟩
  intro s
  have hge := exit_start_ge length size step hstep
  constructor
  · intro hmem
    obtain ⟨i, hi⟩ := List.getElem?_of_mem hmem
    rcases closedForm_getElem?.mp hi with ⟨hlt, heq⟩ | ⟨_, hlt, heq⟩
    · have hs : s = (i : Int) * step := congrArg IdxRange.Low heq
      have h1 := full_end_lt length size step hstep hlt
      have h2 := nat_mul_step_nonneg hstep i
      exact ⟨by omega, ⟨i, by rw [hs]; ring⟩, by omega⟩
    · have hs : s = (numFull length size step : Int) * step := congrArg IdxRange.Low heq
      have hh : s + size = length := congrArg IdxRange.High heq
      have h2 := nat_mul_step_nonneg hstep (numFull length size step)
      exact ⟨by omega, ⟨numFull length size step, by rw [hs]; ring⟩, by omega⟩
  · rintro ⟨hs0, ⟨k, hk⟩, hfit⟩
    have hk0 : 0 ≤ k := by
      by_contra hc
      have := mul_le_mul_of_nonneg_left (Int.add_one_le_of_lt (not_le.mp hc)) hstep.le
      nlinarith
    obtain ⟨j, hj⟩ : ∃ j : Nat, (j : Int) = k := ⟨k.toNat, Int.toNat_of_nonneg hk0⟩
    have hsj : s = (j : Int) * step := by rw [hk, hj]; ring
    have hjn : j ≤ numFull length size step := by
      by_contra hc
      have hc' : (numFull length size step : Int) + 1 ≤ (j : Int) := by
        exact_mod_cast not_le.mp hc
      have := mul_le_mul_of_nonneg_right hc' hstep.le
      nlinarith
    rcases Nat.lt_or_eq_of_le hjn with hlt | heq
    · exact List.getElem?_mem (closedForm_getElem?.mpr (Or.inl ⟨hlt, by rw [hsj]⟩))
    · have hjs : (numFull length size step : Int) * step = s := by rw [hsj, heq]
      refine List.getElem?_mem (closedForm_getElem?.mpr (Or.inr ⟨rfl, by omega, ?_⟩))
      rw [hjs]
      congr 1
      omega

/-! ## Non-positive steps -/

/-- With a positive size and a zero step the producer divides by zero, whatever the
fuel. -/
theorem zero_step_divideByZero (fuel : Nat) (collectionLen partitionSize : Int)
    (hsize : 0 < partitionSize) :
    PartitionWithStep fuel collectionLen partitionSize 0 = Outcome.divideByZero := by
  simp [PartitionWithStep, not_le.mpr hsize]

/-- The division by zero happens for a positive size and a zero step only. -/
theorem divideByZero_iff (fuel : Nat) (collectionLen partitionSize step : Int) :
    PartitionWithStep fuel collectionLen partitionSize step = Outcome.divideByZero ↔
      0 < partitionSize ∧ step = 0 := by
  unfold PartitionWithStep
  by_cases hsize : partitionSize ≤ 0
  · simp only [hsize, if_true]
    constructor
    · intro h
      cases h
    · intro h
      omega
  · by_cases hstep : step = 0
    · simp only [hsize, hstep, if_false, if_true, true_iff, and_true]
      omega
    · simp only [hsize, hstep, if_false]
      constructor
      · intro h
        split at h
        · cases h
        · split at h <;> cases h
      · intro h
        exact h.2.elim

/-- C11, at the failing input: `PartitionWithStep(5, 3, 0)` divides by zero, whatever
the fuel. -/
theorem zero_step_panics_at_5_3_0 :
    ∀ fuel : Nat, PartitionWithStep fuel 5 3 0 = Outcome.divideByZero :=
  fun fuel => zero_step_divideByZero fuel 5 3 (by decide)

/-- C12: for every triple of integers (length, size, step), zero and negative steps
included, the producer loop of `PartitionWithStep` terminates: from some amount of fuel
on the outcome no longer depends on the fuel, and it is either the close of the channel
after a finite sequence of ranges or, when the loop is not reached, the division by
zero.  (For a negative step the loop may end only when `partitionStart` wraps
around.) -/
theorem producer_terminates (length size step : Int) :
    ∃ (fuel0 : Nat) (out : Outcome),
      ((∃ rs, out = Outcome.closed rs) ∨ out = Outcome.divideByZero) ∧
      ∀ fuel : Nat, fuel0 ≤ fuel → PartitionWithStep fuel length size step = out := by
  obtain ⟨fuel0, r, hr⟩ :=
    sendFull_terminates size step (numFullPartitions length size step) []
  have hout : (∃ rs, PartitionWithStep fuel0 length size step = Outcome.closed rs) ∨
      PartitionWithStep fuel0 length size step = Outcome.divideByZero := by
    unfold PartitionWithStep
    by_cases hsize : size ≤ 0
    · exact Or.inl ⟨[], by simp [hsize]⟩
    · by_cases hstep : step = 0
      · exact Or.inr (by simp [hsize, hstep])
      · left
        simp only [hsize, hstep, if_false, hr]
        split
        · exact ⟨_, rfl⟩
        · exact ⟨_, rfl⟩
  refine ⟨fuel0, PartitionWithStep fuel0 length size step, hout, fun fuel hle => ?_⟩
  apply PartitionWithStep_mono fuel0 fuel length size step hle
  rcases hout with ⟨rs, h⟩ | h <;> rw [h] <;> exact Outcome.noConfusion

/-- C13, as stated, fails: at `PartitionWithStep(minInt, 2^62, 2^61)` the dividend of
gopart.go:57 wraps around and the code sends two ranges, whereas `numFull + 1 = 1`. -/
theorem at_most_numFull_succ_counterexample :
    IsInt minInt ∧ IsInt 4611686018427387904 ∧ IsInt 2305843009213693952 ∧
      Produces minInt 4611686018427387904 2305843009213693952
        [{ Low := 0, High := 4611686018427387904 },
          { Low := 2305843009213693952, High := 6917529027641081856 }] ∧
      specNumFull minInt 4611686018427387904 2305843009213693952 + 1 = 1 ∧
      ¬ ∃ rs, Produces minInt 4611686018427387904 2305843009213693952 rs ∧
        (rs.length : Int) ≤
          specNumFull minInt 4611686018427387904 2305843009213693952 + 1 := by
  have hp : Produces minInt 4611686018427387904 2305843009213693952
      [{ Low := 0, High := 4611686018427387904 },
        { Low := 2305843009213693952, High := 6917529027641081856 }] :=
    produces_of_eval 3 _ _ _ _ (by decide)
  refine ⟨by decide, by decide, by decide, hp, by decide, ?_⟩
  rintro ⟨rs, hrs, h⟩
  have := Produces_unique hrs hp
  subst this
  revert h
  decide

/-- C13, amended: for every length, every size > 0 and every step > 0 of Go's `int`
such that `length + step - size - 1` is not below `minInt` (as is the case for every
length >= 0), `PartitionWithStep(length, size, step)` terminates after producing at most
`numFull + 1` ranges, where `numFull = floor((length - size) / step) + 1` when
`length >= size` and `numFull = 0` otherwise. -/
theorem produces_at_most_specNumFull_succ (length size step : Int) (hl : IsInt length)
    (hst : IsInt step) (hsize : 0 < size) (hstep : 0 < step)
    (hlo : minInt ≤ length + step - size - 1) :
    ∃ rs, Produces length size step rs ∧
      (rs.length : Int) ≤ specNumFull length size step + 1 := by
  by_cases hhi : length + step - size - 1 ≤ maxInt
  · have hN : IsInt (length + step - size - 1) := ⟨hlo, hhi⟩
    refine ⟨_, produces_closedForm length size step hsize hstep hN hl.2, ?_⟩
    have hlen : ((closedForm length size step).length : Int) ≤
        (numFull length size step : Int) + 1 := by
      rw [closedForm_length]
      split <;> push_cast <;> omega
    suffices h : (numFull length size step : Int) ≤ specNumFull length size step by omega
    unfold specNumFull
    by_cases hle : size ≤ length
    · rw [if_pos hle, Int.fdiv_eq_ediv _ hstep.le]
      have hlt := Int.lt_ediv_add_one_mul_self (length - size) hstep
      rcases numFull_spec length size step hstep with ⟨_, h0⟩ | ⟨_, h1, _⟩
      · rw [h0]
        have := Int.ediv_nonneg (sub_nonneg.mpr hle) hstep.le
        simp only [Nat.cast_zero]
        omega
      · by_contra hc
        have hc2 : (length - size) / step + 1 + 1 ≤ (numFull length size step : Int) := by
          omega
        have := mul_le_mul_of_nonneg_right hc2 hstep.le
        nlinarith
    · rw [if_neg hle]
      have hn : numFull length size step = 0 := by
        by_contra hne
        have := full_end_lt length size step hstep (i := 0) (Nat.pos_of_ne_zero hne)
        simp only [Nat.cast_zero, zero_mul] at this
        omega
      simp [hn]
  · obtain ⟨_, hform⟩ :=
      machineForm_of_wrap_above length size step hl hst hsize hstep (not_le.mp hhi)
    refine ⟨_, produces_machineForm length size step hsize hstep, ?_⟩
    rw [hform]
    have h0 : 0 ≤ specNumFull length size step := by
      unfold specNumFull
      split
      · rename_i hle
        have := Int.fdiv_nonneg (sub_nonneg.mpr hle) hstep.le
        omega
      · exact le_refl _
    simp only [List.length_singleton, Nat.cast_one]
    omega

theorem produces_at_most_specNumFull_succ_witness :
    IsInt 8 ∧ IsInt 2 ∧ (0 : Int) < 3 ∧ (0 : Int) < 2 ∧ minInt ≤ (8 : Int) + 2 - 3 - 1 ∧
      ∃ rs, Produces 8 3 2 rs ∧ (rs.length : Int) ≤ specNumFull 8 3 2 + 1 :=
  ⟨by decide, by decide, by decide, by decide, by decide,
    produces_at_most_specNumFull_succ 8 3 2 (by decide) (by decide) (by decide)
      (by decide) (by decide)⟩

/-! ## Refinement of the naive sliding iterator -/

/-- The naive iterator, started at `i * step` with `k` full windows still ahead of the
exit position of the loop, emits them and then the left-over range, if any. -/
theorem naiveSlide_pos (length size step : Int) (hsize : 0 < size) (hstep : 0 < step) :
    ∀ (k i fuel : Nat), i + k = numFull length size step → k < fuel →
      naiveSlide length size step fuel (i * step) =
        some (((List.range' i k).map fun (j : Nat) =>
            ({ Low := (j : Int) * step, High := (j : Int) * step + size } : IdxRange)) ++
          leftOver length (numFull length size step * step)) := by
  intro k
  induction k with
  | zero =>
    intro i fuel hik hfuel
    obtain ⟨f, rfl⟩ : ∃ f, fuel = f + 1 := ⟨fuel - 1, by omega⟩
    have hi : i = numFull length size step := by omega
    have hge := exit_start_ge length size step hstep
    rw [← hi] at hge ⊢
    unfold leftOver
    by_cases hle : length ≤ (i : Int) * step
    · simp [naiveSlide, hle, not_lt.mpr hle]
    · have h2 : length ≤ (i : Int) * step + size := by omega
      simp [naiveSlide, hle, h2, not_le.mp hle]
  | succ k ih =>
    intro i fuel hik hfuel
    obtain ⟨f, rfl⟩ : ∃ f, fuel = f + 1 := ⟨fuel - 1, by omega⟩
    have hlt := full_end_lt length size step hstep (i := i) (by omega)
    have h1 : ¬ length ≤ (i : Int) * step := by omega
    have h2 : ¬ length ≤ (i : Int) * step + size := by omega
    have hnext : (i : Int) * step + step = ((i + 1 : Nat) : Int) * step := by
      push_cast; ring
    have hmin : min ((i : Int) * step + size) length = (i : Int) * step + size :=
      min_eq_left hlt.le
    simp only [naiveSlide, h1, h2, if_false, hnext, ih (i + 1) f (by omega) (by omega),
      hmin, Option.map_some', List.range'_succ, List.map_cons, List.cons_append]

/-- C15, at the failing input: at `PartitionWithStep(10, 3, maxInt)` the naive sliding
iterator gives `{0, 3}` and stops, whereas the code sends `{0, 10}`. -/
theorem naive_slide_differs_at_10_3_maxInt :
    IsInt 10 ∧ IsInt 3 ∧ IsInt maxInt ∧ (0 : Int) < 3 ∧ (0 : Int) < maxInt ∧
      Produces 10 3 maxInt [{ Low := 0, High := 10 }] ∧
      NaiveProduces 10 3 maxInt [{ Low := 0, High := 3 }] ∧
      ([{ Low := 0, High := 10 }] : List IdxRange) ≠ [{ Low := 0, High := 3 }] := by
  refine ⟨by decide, by decide, by decide, by decide, by decide,
    produces_of_eval 1 _ _ _ _ (by decide), ⟨2, fun fuel hfuel => ?_⟩, by decide⟩
  obtain ⟨f, rfl⟩ : ∃ f, fuel = f + 1 + 1 := ⟨fuel - 2, by omega⟩
  simp only [naiveSlide]
  rw [if_neg (by decide), if_neg (by decide), zero_add, if_pos (by decide)]
  rfl

/-- Where `length + step - size - 1` does not wrap around, the output of
`PartitionWithStep(length, size, step)` is the output of the naive sliding iterator. -/
theorem refines_naive_slide_of_no_wrap (length size step : Int) (hl : length ≤ maxInt)
    (hsize : 0 < size) (hstep : 0 < step) (hN : IsInt (length + step - size - 1)) :
    ∃ rs, Produces length size step rs ∧ NaiveProduces length size step rs := by
  refine ⟨_, produces_closedForm length size step hsize hstep hN hl,
    numFull length size step + 1, fun fuel hfuel => ?_⟩
  have := naiveSlide_pos length size step hsize hstep (numFull length size step) 0 fuel
    (by omega) (by omega)
  simp only [Nat.cast_zero, zero_mul] at this
  rw [this]
  simp [closedForm, fullRanges, List.range_eq_range']

/-- C16: for every length > 0, every size > 0 and every step with `0 < step <= size`
of Go's `int`, every index `x` with `0 <= x < length` lies in at least one range
produced by `PartitionWithStep(length, size, step)`, and the last produced range has
`High = length`. -/
theorem overlapping_step_covers (length size step : Int) (hl : IsInt length)
    (hs : IsInt size) (hlen : 0 < length) (hsize : 0 < size) (hstep : 0 < step)
    (hss : step ≤ size) :
    ∃ rs, Produces length size step rs ∧
      (∀ x : Int, 0 ≤ x → x < length → ∃ r ∈ rs, r.Low ≤ x ∧ x < r.High) ∧
      rs.getLast?.map IdxRange.High = some length := by
  have hN : IsInt (length + step - size - 1) := by
    simp only [IsInt, minInt, maxInt] at hl hs ⊢
    constructor <;> omega
  have hlt : (numFull length size step : Int) * step < length := by
    rcases numFull_spec length size step hstep with ⟨_, h0⟩ | ⟨_, hle, _⟩
    · rw [h0]; simpa using hlen
    · omega
  have hleft : (closedForm length size step)[numFull length size step]? =
      some { Low := (numFull length size step : Int) * step, High := length } :=
    closedForm_getElem?.mpr (Or.inr ⟨rfl, hlt, rfl⟩)
  refine ⟨_, produces_closedForm length size step hsize hstep hN hl.2, ?_, ?_⟩
  · intro x hx0 hxl
    have hq0 : 0 ≤ x / step := Int.ediv_nonneg hx0 hstep.le
    have hqle := Int.ediv_mul_le x hstep.ne'
    have hqlt := Int.lt_ediv_add_one_mul_self x hstep
    obtain ⟨q, hq⟩ : ∃ q : Nat, (q : Int) = x / step :=
      ⟨(x / step).toNat, Int.toNat_of_nonneg hq0⟩
    rw [← hq] at hqle hqlt
    by_cases hqn : q < numFull length size step
    · refine ⟨_, List.getElem?_mem (closedForm_getElem?.mpr (Or.inl ⟨hqn, rfl⟩)), ?_, ?_⟩
      · exact hqle
      · simp only
        linarith
    · refine ⟨_, List.getElem?_mem hleft, ?_, hxl⟩
      have : (numFull length size step : Int) ≤ (q : Int) := by
        exact_mod_cast not_lt.mp hqn
      have := mul_le_mul_of_nonneg_right this hstep.le
      simp only
      linarith
  · rw [List.getLast?_eq_getElem?, closedForm_length]
    simp only [hlt, if_true, Nat.add_sub_cancel]
    rw [hleft]
    rfl

theorem overlapping_step_covers_witness :
    IsInt 8 ∧ IsInt 3 ∧ (0 : Int) < 8 ∧ (0 : Int) < 3 ∧ (0 : Int) < 2 ∧ (2 : Int) ≤ 3 ∧
      ∃ rs, Produces 8 3 2 rs ∧
        (∀ x : Int, 0 ≤ x → x < 8 → ∃ r ∈ rs, r.Low ≤ x ∧ x < r.High) ∧
        rs.getLast?.map IdxRange.High = some 8 :=
  ⟨by decide, by decide, by decide, by decide, by decide, by decide,
    overlapping_step_covers 8 3 2 (by decide) (by decide) (by decide) (by decide)
      (by decide) (by decide)⟩

/-! ## Negative steps for which the loop is not entered -/

/-- For a negative step, `length <= size - 2*step` and no wrap-around of
`length + step - size - 1` below `minInt`, the bound of the loop is not positive. -/
theorem loop_bound_nonpos_of_negative_step (length size step : Int) (hst : IsInt step)
    (hstep : step < 0) (hlen : length ≤ size - 2 * step)
    (hlo : minInt ≤ length + step - size - 1) :
    goMul (numFullPartitions length size step) step ≤ 0 := by
  have hN : IsInt (length + step - size - 1) := by
    simp only [IsInt, minInt, maxInt] at hst hlo ⊢
    constructor <;> omega
  have hNp : length + step - size - 1 ≤ -step - 1 := by omega
  unfold numFullPartitions goDiv goMul
  rw [numerator_eq, wrap_eq_self hN, wrap_wrap_mul]
  generalize length + step - size - 1 = N at hN hNp
  obtain ⟨p, rfl⟩ : ∃ p : Int, step = -p := ⟨-step, by omega⟩
  have hp : 0 < p := by omega
  have hprod : N.tdiv (-p) * -p = N.tdiv p * p := by
    rw [Int.tdiv_neg]
    ring
  rw [hprod]
  simp only [IsInt, minInt, maxInt] at hN hst
  rcases tdiv_pos_spec N p hp with ⟨_, _, h1, h2, _⟩ | ⟨_, h0, h1, _, _, h2⟩
  · rw [wrap_eq_self ⟨by simp only [minInt]; omega, by simp only [maxInt]; omega⟩]
    exact h2
  · have hq : N.tdiv p * p ≤ 0 := by
      by_contra hc
      have h3 : 1 ≤ N.tdiv p := by
        by_contra h4
        have h5 : N.tdiv p = 0 := by omega
        rw [h5] at hc
        simp at hc
      have := le_mul_of_one_le_left hp.le h3
      omega
    rw [wrap_eq_self ⟨by simp only [minInt]; omega, by simp only [maxInt]; omega⟩]
    exact hq

/-- For a negative step, a positive size, `length <= size - 2*step` and no wrap-around of
`length + step - size - 1` below `minInt`, the loop is not entered: the output is the
single range `{0, length}` when `length > 0` and empty otherwise. -/
theorem produces_of_negative_step (length size step : Int) (hst : IsInt step)
    (hstep : step < 0) (hsize : 0 < size) (hlen : length ≤ size - 2 * step)
    (hlo : minInt ≤ length + step - size - 1) :
    Produces length size step
      (if 0 < length then [{ Low := 0, High := length }] else []) := by
  refine ⟨1, fun fuel hfuel => ?_⟩
  obtain ⟨f, rfl⟩ : ∃ f, fuel = f + 1 := ⟨fuel - 1, by omega⟩
  have hcond : ¬ ((0 : Int) < goMul (numFullPartitions length size step) step) :=
    not_lt.mpr (loop_bound_nonpos_of_negative_step length size step hst hstep hlen hlo)
  unfold PartitionWithStep
  rw [if_neg (not_le.mpr hsize), if_neg hstep.ne]
  simp only [sendFull, hcond, if_false]
  split <;> simp

/-- C17, as stated, fails: at `PartitionWithStep(minInt, 1, -2^61)` (step < 0, size > 0,
length <= size - 2*step, length <= 0) the dividend of gopart.go:57 wraps around and the
code sends five ranges instead of none. -/
theorem negative_step_counterexample :
    IsInt minInt ∧ IsInt 1 ∧ IsInt (-2305843009213693952) ∧
      (-2305843009213693952 : Int) < 0 ∧ (0 : Int) < 1 ∧
      minInt ≤ 1 - 2 * (-2305843009213693952) ∧ minInt ≤ 0 ∧
      Produces minInt 1 (-2305843009213693952)
        [{ Low := 0, High := 1 },
          { Low := -2305843009213693952, High := -2305843009213693951 },
          { Low := -4611686018427387904, High := -4611686018427387903 },
          { Low := -6917529027641081856, High := -6917529027641081855 },
          { Low := -9223372036854775808, High := -9223372036854775807 }] ∧
      ¬ Produces minInt 1 (-2305843009213693952) [] := by
  have hp : Produces minInt 1 (-2305843009213693952)
      [{ Low := 0, High := 1 },
        { Low := -2305843009213693952, High := -2305843009213693951 },
        { Low := -4611686018427387904, High := -4611686018427387903 },
        { Low := -6917529027641081856, High := -6917529027641081855 },
        { Low := -9223372036854775808, High := -9223372036854775807 }] :=
    produces_of_eval 6 _ _ _ _ (by decide)
  refine ⟨by decide, by decide, by decide, by decide, by decide, by decide, by decide,
    hp, ?_⟩
  intro h
  have := Produces_unique h hp
  revert this
  decide

/-- C17, amended: for every step < 0, every size > 0 and every length <= size - 2*step
of Go's `int` such that `length + step - size - 1` is not below `minInt`,
`PartitionWithStep(length, size, step)` produces the empty sequence when `length <= 0`
and exactly the single range `{Low: 0, High: length}` when `length > 0`; at length 5,
size 3, step -1 that range is wider than `size`. -/
theorem negative_step_whole_collection (length size step : Int) (hst : IsInt step)
    (hstep : step < 0) (hsize : 0 < size) (hlen : length ≤ size - 2 * step)
    (hlo : minInt ≤ length + step - size - 1) :
    (length ≤ 0 → Produces length size step []) ∧
      (0 < length → Produces length size step [{ Low := 0, High := length }]) ∧
      ((5 : Int) ≤ 3 - 2 * (-1) ∧ Produces 5 3 (-1) [{ Low := 0, High := 5 }] ∧
        (3 : Int) < IdxRange.width { Low := 0, High := 5 }) := by
  refine ⟨fun h => ?_, fun h => ?_, by decide, ?_, by decide⟩
  · have := produces_of_negative_step length size step hst hstep hsize hlen hlo
    rwa [if_neg (not_lt.mpr h)] at this
  · have := produces_of_negative_step length size step hst hstep hsize hlen hlo
    rwa [if_pos h] at this
  · exact produces_of_eval 1 5 3 (-1) [{ Low := 0, High := 5 }] (by decide)

theorem negative_step_whole_collection_witness :
    IsInt (-1) ∧ (-1 : Int) < 0 ∧ (0 : Int) < 3 ∧ (5 : Int) ≤ 3 - 2 * (-1) ∧
      minInt ≤ (5 : Int) + (-1) - 3 - 1 ∧
      ((5 : Int) ≤ 0 → Produces 5 3 (-1) []) ∧
      ((0 : Int) < 5 → Produces 5 3 (-1) [{ Low := 0, High := 5 }]) ∧
      ((5 : Int) ≤ 3 - 2 * (-1) ∧ Produces 5 3 (-1) [{ Low := 0, High := 5 }] ∧
        (3 : Int) < IdxRange.width { Low := 0, High := 5 }) :=
  ⟨by decide, by decide, by decide, by decide, by decide,
    negative_step_whole_collection 5 3 (-1) (by decide) (by decide) (by decide)
      (by decide) (by decide)⟩

/-! ## The value of `numFullPartitions` -/

/-- C18, as stated, fails: at length 9, size 3, step 3 the code computes
`numFullPartitions = (9 + 3 - 3 - 1) / 3 = 2`, whereas `floor((9 - 3) / 3) + 1 = 3`,
which is the number of offsets `0, 3, 6` with `s + 3 <= 9`. -/
theorem numFullPartitions_counterexample :
    (0 : Int) < 3 ∧ (3 : Int) ≤ 9 ∧
      numFullPartitions 9 3 3 = 2 ∧ specNumFull 9 3 3 = 3 ∧
      ((List.range 10).filter fun (k : Nat) => decide ((k : Int) * 3 + 3 ≤ 9)).length = 3 ∧
      numFullPartitions 9 3 3 ≠ specNumFull 9 3 3 := by
  decide

/-- C18, amended: for every step > 0 and every length >= size > 0 of Go's `int` such
that `length + step - size - 1` is not above `maxInt`, the value
`numFullPartitions = (collectionLen + step - partitionSize - 1) / step` equals
`floor((length - size - 1) / step) + 1`, the number of starting offsets `s` in
`{0, step, 2*step, ...}` with `s + size < length`; it is `floor((length - size) / step) + 1`
when `step` does not divide `length - size`, and one less when it does. -/
theorem numFullPartitions_eq (length size step : Int) (hstep : 0 < step)
    (_hsize : 0 < size) (hlen : size ≤ length) (hhi : length + step - size - 1 ≤ maxInt) :
    numFullPartitions length size step = (length - size - 1).fdiv step + 1 ∧
      (∀ k : Nat, (k : Int) < numFullPartitions length size step ↔
        (k : Int) * step + size < length) ∧
      numFullPartitions length size step =
        specNumFull length size step - (if step ∣ length - size then 1 else 0) := by
  have hN : IsInt (length + step - size - 1) := by
    simp only [IsInt, minInt, maxInt] at hhi ⊢
    constructor <;> omega
  have hfirst : numFullPartitions length size step = (length - size - 1) / step + 1 := by
    obtain ⟨_, _, hnf, _⟩ := numFullPartitions_pos_spec length size step hstep
    rw [hnf, wrap_eq_self hN, Int.tdiv_eq_ediv (by omega) hstep.le]
    have : length + step - size - 1 = (length - size - 1) + 1 * step := by ring
    rw [this, Int.add_mul_ediv_right _ _ hstep.ne']
  refine ⟨by rw [hfirst, Int.fdiv_eq_ediv _ hstep.le], ?_, ?_⟩
  · intro k
    rw [hfirst, Int.lt_add_one_iff, Int.le_ediv_iff_mul_le hstep]
    omega
  · rw [hfirst]
    unfold specNumFull
    rw [if_pos hlen, Int.fdiv_eq_ediv _ hstep.le]
    have hdiv := Int.emod_add_ediv (length - size) step
    have hr0 := Int.emod_nonneg (length - size) hstep.ne'
    have hrlt := Int.emod_lt_of_pos (length - size) hstep
    by_cases hdvd : step ∣ length - size
    · have hr : (length - size) % step = 0 := Int.emod_eq_zero_of_dvd hdvd
      have h := (Int.ediv_emod_unique (a := length - size - 1) (r := step - 1)
        (q := (length - size) / step - 1) hstep).mpr
        ⟨by rw [mul_sub]; omega, by omega, by omega⟩
      rw [h.1, if_pos hdvd]
      ring
    · have hr : (length - size) % step ≠ 0 := fun h => hdvd (Int.dvd_of_emod_eq_zero h)
      have h := (Int.ediv_emod_unique (a := length - size - 1)
        (r := (length - size) % step - 1) (q := (length - size) / step) hstep).mpr
        ⟨by omega, by omega, by omega⟩
      rw [h.1, if_neg hdvd]
      ring

theorem numFullPartitions_eq_witness :
    (0 : Int) < 3 ∧ (0 : Int) < 3 ∧ (3 : Int) ≤ 9 ∧ (9 : Int) + 3 - 3 - 1 ≤ maxInt ∧
      numFullPartitions 9 3 3 = ((9 : Int) - 3 - 1).fdiv 3 + 1 ∧
      (∀ k : Nat, (k : Int) < numFullPartitions 9 3 3 ↔ (k : Int) * 3 + 3 < 9) ∧
      numFullPartitions 9 3 3 =
        specNumFull 9 3 3 - (if (3 : Int) ∣ 9 - 3 then 1 else 0) :=
  ⟨by decide, by decide, by decide, by decide,
    numFullPartitions_eq 9 3 3 (by decide) (by decide) (by decide) (by decide)⟩

/-! ## The table of gopart_test.go and further evaluations -/

theorem test_evenly_split :
    PartitionWithStep 10 9 3 3 = Outcome.closed [⟨0, 3⟩, ⟨3, 6⟩, ⟨6, 9⟩] := by decide

theorem test_uneven_partition :
    PartitionWithStep 10 13 5 5 = Outcome.closed [⟨0, 5⟩, ⟨5, 10⟩, ⟨10, 13⟩] := by decide

theorem test_large_partition_size :
    PartitionWithStep 10 13 19 19 = Outcome.closed [⟨0, 13⟩] := by decide

theorem test_zero_partition_size :
    PartitionWithStep 10 7 0 0 = Outcome.closed [] := by decide

theorem test_negative_partition_size :
    PartitionWithStep 10 7 (-4) (-4) = Outcome.closed [] := by decide

theorem test_same_size :
    PartitionWithStep 10 19 19 19 = Outcome.closed [⟨0, 19⟩] := by decide

theorem test_zero_collection_length :
    PartitionWithStep 10 0 19 19 = Outcome.closed [] := by decide

theorem test_overlapping_step_one :
    PartitionWithStep 10 5 3 1 = Outcome.closed [⟨0, 3⟩, ⟨1, 4⟩, ⟨2, 5⟩] := by decide

theorem test_overlapping_step_two :
    PartitionWithStep 10 8 3 2 = Outcome.closed [⟨0, 3⟩, ⟨2, 5⟩, ⟨4, 7⟩, ⟨6, 8⟩] := by
  decide

theorem test_gaps_remainder :
    PartitionWithStep 10 5 3 4 = Outcome.closed [⟨0, 3⟩, ⟨4, 5⟩] := by decide

theorem test_gaps_outside :
    PartitionWithStep 10 5 3 6 = Outcome.closed [⟨0, 3⟩] := by decide

theorem eval_zero_step_positive_size :
    PartitionWithStep 10 5 3 0 = Outcome.divideByZero := by decide

theorem eval_negative_step_single_range :
    PartitionWithStep 10 5 3 (-1) = Outcome.closed [⟨0, 5⟩] := by decide

theorem eval_step_maxInt :
    PartitionWithStep 10 10 3 maxInt = Outcome.closed [⟨0, 10⟩] := by decide

theorem eval_length_minInt :
    PartitionWithStep 10 minInt maxInt maxInt = Outcome.closed [⟨0, maxInt⟩] := by decide

end Gopart
